import Mathlib

/-!
Verification of the owmidiconverter core pipeline (src/owmidiparser.js).

The JavaScript source is shallowly embedded:
* JS numbers that hold note times (seconds) are modelled as rationals `ℚ`.
* Chord-time keys are modelled in integer milliseconds (`ℤ`): the source
  quantizes every time to three decimals (`roundToPlaces(t, 3)`), so a key
  `k/1000` seconds corresponds exactly to the integer `k` = round(t * 1000);
  equality, ordering and the builder's delay computation
  `roundToPlaces((t - prev) * 1000, 3)` coincide under this scaling.
* Decimal strings produced by `toString`/`padStart` are modelled as lists of
  base-10 digits (most significant first).
* JS `Map` objects are modelled as association lists that preserve insertion
  order, which is what `Map` iteration does.
* Out-of-range JS array indexing evaluates to `undefined`; when interpolated
  into a template string it renders as `"undefined"`, which the emitter
  embedding reproduces.
-/

/-! ### Constants of the source file -/

/-- PIANO_RANGE.MIN from the source. -/
def PIANO_RANGE_MIN : ℤ := 24

/-- PIANO_RANGE.MAX from the source. -/
def PIANO_RANGE_MAX : ℤ := 88

/-- OCTAVE from the source. -/
def OCTAVE : ℤ := 12

/-- MAX_OW_ARRAY_SIZE from the source. -/
def MAX_OW_ARRAY_SIZE : Nat := 999

/-- MAX_TOTAL_ARRAY_ELEMENTS from the source. -/
def MAX_TOTAL_ARRAY_ELEMENTS : Nat := 9000

/-- MAX_TIME_INTERVAL from the source (milliseconds). -/
def MAX_TIME_INTERVAL : ℤ := 9999

/-- COMPRESSED_ELEMENT_LENGTH from the source. -/
def COMPRESSED_ELEMENT_LENGTH : Nat := 7

/-- SONG_DATA_ELEMENT_LENGTHS.pitchArrays from the source. -/
def PITCH_ELEMENT_LENGTH : Nat := 2

/-- SONG_DATA_ELEMENT_LENGTHS.timeArrays from the source. -/
def TIME_ELEMENT_LENGTH : Nat := 4

/-- SONG_DATA_ELEMENT_LENGTHS.chordArrays from the source. -/
def CHORD_ELEMENT_LENGTH : Nat := 1

/-! ### Decimal digit strings

`natToDigits` models JS `Number.prototype.toString` for a non-negative
integer, as the list of base-10 digits, most significant first.
`padZeros` models `String.prototype.padStart(w, "0")`: it prepends zeros
when the string is shorter than `w` and leaves it unchanged otherwise. -/

/-- Recursion core of `natToDigits`; `fuel` only bounds the recursion depth
(any `fuel > n` gives the same value, see `natToDigitsAux_congr`), keeping
the definition structurally recursive. -/
def natToDigitsAux : Nat → Nat → List Nat
  | 0, _ => []
  | fuel + 1, n => if n < 10 then [n] else natToDigitsAux fuel (n / 10) ++ [n % 10]

/-- Base-10 digits of `n`, most significant first; `natToDigits 0 = [0]`,
matching JS `(0).toString() = "0"`. -/
def natToDigits (n : Nat) : List Nat := natToDigitsAux (n + 1) n

/-- Reads a digit list (most significant first) back as a natural number,
i.e. interpreting the digit string as a decimal integer. -/
def digitsToNat (ds : List Nat) : Nat :=
  ds.foldl (fun a d => a * 10 + d) 0

/-- Models `padStart(w, "0")` on a digit string. -/
def padZeros (w : Nat) (ds : List Nat) : List Nat :=
  List.replicate (w - ds.length) 0 ++ ds

/-- Recursion core of `chunks`; `fuel` only bounds the recursion depth
(any `fuel > l.length` gives the same value, see `chunksAux_congr`). -/
def chunksAux : Nat → Nat → List α → List (List α)
  | 0, _, _ => []
  | fuel + 1, k, l =>
    if l.length = 0 ∨ k = 0 then [] else l.take k :: chunksAux fuel k (l.drop k)

/-- Splits a list into consecutive chunks of `k` elements; the final chunk
may be shorter.  (Models the slicing loop of `compressSongArrays`.) -/
def chunks (k : Nat) (l : List α) : List (List α) := chunksAux (l.length + 1) k l

/-- Ceiling division on naturals, `⌈a / b⌉`; models `Math.ceil(a / b)` for
non-negative integers. -/
def ceilDivNat (a b : Nat) : Nat := (a + b - 1) / b

/-! ### Digit packer (compressSongArrays) -/

/-- The three parallel song-data streams built by `convertToArray`
(`owArrays` in the source), with numeric elements. -/
structure OwArraysN where
  pitchArrays : List Nat
  timeArrays : List Nat
  chordArrays : List Nat
deriving DecidableEq, Repr

/-- The three packed streams produced by `compressSongArrays`; each packed
element is a digit string (the source pushes string slices). -/
structure CompressedArrays where
  pitchArrays : List (List Nat)
  timeArrays : List (List Nat)
  chordArrays : List (List Nat)
deriving DecidableEq, Repr

/-- One stream of the digit packer: pad each element with leading zeros to
`w` digits, concatenate everything, and re-slice into chunks of
`COMPRESSED_ELEMENT_LENGTH` digits (the last chunk may be shorter). -/
def compressStream (w : Nat) (songArray : List Nat) : List (List Nat) :=
  chunks COMPRESSED_ELEMENT_LENGTH
    ((songArray.map (fun x => padZeros w (natToDigits x))).flatten)

/-- compressSongArrays from the source: packs each of the three streams with
its fixed field width (pitch 2, time 4, chord 1). -/
def compressSongArrays (owArrays : OwArraysN) : CompressedArrays :=
  { pitchArrays := compressStream PITCH_ELEMENT_LENGTH owArrays.pitchArrays
    timeArrays := compressStream TIME_ELEMENT_LENGTH owArrays.timeArrays
    chordArrays := compressStream CHORD_ELEMENT_LENGTH owArrays.chordArrays }

/-- Decoder described by the specification (not present in the source):
concatenate a packed stream's digit strings back into one digit string,
split it into fixed-width fields of `w` digits, and read each field as a
decimal integer. -/
def decodeStream (w : Nat) (packed : List (List Nat)) : List Nat :=
  (chunks w packed.flatten).map digitsToNat

/-! ### JS default array sort on numbers

`Array.prototype.sort()` with no comparator converts elements to strings and
orders them lexicographically by UTF-16 code units; on digit strings that is
lexicographic order of the decimal representations (e.g. `[9,10].sort()`
gives `[10, 9]`). -/

/-- Lexicographic order on digit strings (true when the first argument is a
prefix of or lexicographically at most the second). -/
def lexLe : List Nat → List Nat → Bool
  | [], _ => true
  | _ :: _, [] => false
  | a :: as, b :: bs => if a < b then true else if b < a then false else lexLe as bs

/-- The JS default sort comparison on non-negative integers: compare the
decimal string representations lexicographically. -/
def strLe (a b : Nat) : Prop := lexLe (natToDigits a) (natToDigits b) = true

instance : DecidableRel strLe := fun a b =>
  inferInstanceAs (Decidable (lexLe (natToDigits a) (natToDigits b) = true))

instance : IsTotal Nat strLe := by
  constructor
  have h : ∀ (x y : List Nat), lexLe x y = true ∨ lexLe y x = true := by
    intro x
    induction x with
    | nil => intro y; left; rfl
    | cons a as ih =>
      intro y
      cases y with
      | nil => right; rfl
      | cons b bs =>
        by_cases hab : a < b
        · left; simp [lexLe, hab]
        · by_cases hba : b < a
          · right; simp [lexLe, hba]
          · have hea : a = b := by omega
            subst hea
            rcases ih bs with h1 | h1
            · left; simpa [lexLe] using h1
            · right; simpa [lexLe] using h1
  intro a b
  exact h _ _

instance : IsTrans Nat strLe := by
  constructor
  have h : ∀ (x y z : List Nat), lexLe x y = true → lexLe y z = true → lexLe x z = true := by
    intro x
    induction x with
    | nil => intro y z _ _; rfl
    | cons a as ih =>
      intro y z hxy hyz
      cases y with
      | nil => simp [lexLe] at hxy
      | cons b bs =>
        cases z with
        | nil => simp [lexLe] at hyz
        | cons c cs =>
          simp only [lexLe] at hxy hyz ⊢
          by_cases hab : a < b
          · by_cases hbc : b < c
            · simp [show a < c by omega]
            · by_cases hcb : c < b
              · simp [hbc, hcb] at hyz
              · have hbe : b = c := by omega
                subst hbe
                simp [show a < b by omega]
          · by_cases hba : b < a
            · simp [hab, hba] at hxy
            · have hae : a = b := by omega
              subst hae
              simp only [lt_irrefl, if_false] at hxy
              by_cases hac : a < c
              · simp [hac]
              · by_cases hca : c < a
                · simp [hac, hca] at hyz
                · have hce : a = c := by omega
                  subst hce
                  simp only [lt_irrefl, if_false] at hyz ⊢
                  exact ih bs cs hxy hyz
  intro a b c
  exact h _ _ _

/-- The in-loop `pitches.sort()` of `convertToArray`: JS default sort, i.e.
a stable sort by `strLe`. -/
def jsSortPitches (pitches : List Nat) : List Nat := List.insertionSort strLe pitches

/-! ### Array builder (convertToArray)

Chord times are integer milliseconds (see the header comment).  Because the
aggregator quantizes every chord time to three decimals, the source's delay
expression `roundToPlaces((t - prev) * 1000, 3)` is exactly the difference
of the millisecond keys, and `Math.min` with `MAX_TIME_INTERVAL` caps it.
The `.toNat` coercion on the delay is exact whenever the chords are sorted
by increasing time, which `readMidiData` guarantees. -/

/-- The recursive reading of the `for (... of chords.entries())` loop of
`convertToArray`: element counters grow before the size check; on overflow
the loop stops, recording the current chord time (0 is the source's "no
early stop" sentinel value of `stopTime`). -/
def convertToArrayGo (compressionEnabled : Bool) (prevTime : ℤ) (pe te ce : Nat) :
    List (ℤ × List Nat) → OwArraysN × ℤ
  | [] => (⟨[], [], []⟩, 0)
  | (t, pitches) :: rest =>
    let pe2 := pe + pitches.length
    let te2 := te + 1
    let ce2 := ce + 1
    let size := if compressionEnabled
      then ceilDivNat (pe2 * PITCH_ELEMENT_LENGTH + te2 * TIME_ELEMENT_LENGTH
            + ce2 * CHORD_ELEMENT_LENGTH) COMPRESSED_ELEMENT_LENGTH
      else pe2 + te2 + ce2
    if size > MAX_TOTAL_ARRAY_ELEMENTS then (⟨[], [], []⟩, t)
    else
      let res := convertToArrayGo compressionEnabled t pe2 te2 ce2 rest
      (⟨jsSortPitches pitches ++ res.1.pitchArrays,
        (min (t - prevTime) MAX_TIME_INTERVAL).toNat :: res.1.timeArrays,
        pitches.length :: res.1.chordArrays⟩, res.2)

/-- convertToArray from the source: `prevTime` starts at the first chord's
time (so the first delay is 0), and if the loop ran to completion
(`stopTime == 0`), `stopTime` becomes the last chord's time. -/
def convertToArray (chords : List (ℤ × List Nat)) (compressionEnabled : Bool) :
    OwArraysN × ℤ :=
  let prevTime := ((chords.head?).map Prod.fst).getD 0
  let res := convertToArrayGo compressionEnabled prevTime 0 0 0 chords
  let stopTime := if res.2 = 0 then ((chords.getLast?).map Prod.fst).getD 0 else res.2
  (res.1, stopTime)

/-- The prefix of chords the builder actually commits (mirrors the break
decisions of `convertToArrayGo`). -/
def builderCommitted (compressionEnabled : Bool) (pe te ce : Nat) :
    List (ℤ × List Nat) → List (ℤ × List Nat)
  | [] => []
  | (t, pitches) :: rest =>
    let pe2 := pe + pitches.length
    let te2 := te + 1
    let ce2 := ce + 1
    let size := if compressionEnabled
      then ceilDivNat (pe2 * PITCH_ELEMENT_LENGTH + te2 * TIME_ELEMENT_LENGTH
            + ce2 * CHORD_ELEMENT_LENGTH) COMPRESSED_ELEMENT_LENGTH
      else pe2 + te2 + ce2
    if size > MAX_TOTAL_ARRAY_ELEMENTS then []
    else (t, pitches) :: builderCommitted compressionEnabled pe2 te2 ce2 rest

/-- The streams the builder produces when no size break occurs. -/
def fullStreams (prevTime : ℤ) : List (ℤ × List Nat) → OwArraysN
  | [] => ⟨[], [], []⟩
  | (t, pitches) :: rest =>
    let r := fullStreams t rest
    ⟨jsSortPitches pitches ++ r.pitchArrays,
     (min (t - prevTime) MAX_TIME_INTERVAL).toNat :: r.timeArrays,
     pitches.length :: r.chordArrays⟩

/-- Total number of pitches across a chord list. -/
def pitchTotal (chords : List (ℤ × List Nat)) : Nat :=
  (chords.map (fun c => c.2.length)).sum

/-- A chord list on which the compressed-size estimate stays exactly at the
budget (9000) while the true packed element count is 9002: 2320 chords of
five pitches followed by 2169 chords of four pitches, at strictly
increasing times one second apart. -/
def cex2Chords : List (ℤ × List Nat) :=
  (List.range 2320).map (fun i : Nat => (((i : ℤ) + 1) * 1000, [10, 11, 12, 13, 14]))
    ++ (List.range 2169).map (fun i : Nat => (((i : ℤ) + 2321) * 1000, [20, 21, 22, 23]))

/-! ### Chord aggregator (readMidiData) and transposition -/

/-- NoteEvent of the data model (`note.time` seconds, `note.midi`,
`note.velocity`). -/
structure NoteEvent where
  time : ℚ
  midi : ℤ
  velocity : ℚ
deriving DecidableEq

/-- One track of the parsed MIDI object. -/
structure MidiTrack where
  channel : ℤ
  notes : List NoteEvent
deriving DecidableEq

/-- The parsed MIDI object as far as the converter reads it. -/
structure MidiFile where
  tracks : List MidiTrack
  duration : ℚ
deriving DecidableEq

/-- The first `while` of `transposePitch`: shift up by octaves while below
the piano range. -/
def transposeUp (p : ℤ) : ℤ :=
  if p < PIANO_RANGE_MIN then transposeUp (p + OCTAVE) else p
termination_by (PIANO_RANGE_MIN - p).toNat
decreasing_by
  simp only [PIANO_RANGE_MIN, OCTAVE] at *
  omega

/-- The second `while` of `transposePitch`: shift down by octaves while
above the piano range. -/
def transposeDown (p : ℤ) : ℤ :=
  if p > PIANO_RANGE_MAX then transposeDown (p - OCTAVE) else p
termination_by (p - PIANO_RANGE_MAX).toNat
decreasing_by
  simp only [PIANO_RANGE_MAX, OCTAVE] at *
  omega

/-- transposePitch from the source: both `while` loops in sequence. -/
def transposePitch (p : ℤ) : ℤ := transposeDown (transposeUp p)

/-- Chord-time key of a note: `roundToPlaces(note.time, 3)` scaled to
integer milliseconds.  JS `Math.round x = ⌊x + 1/2⌋`, and for
`x = t·1000 = 1000·num/den` one has `x + 1/2 = (2000·num + den)/(2·den)`
with positive denominator, so the floor is the floor division of those two
integers.  (`noteTimeKey_eq_round` checks this against Mathlib's `round`.) -/
def noteTimeKey (t : ℚ) : ℤ := Int.fdiv (2 * (t.num * 1000) + t.den) (2 * t.den)

/-- Association-list lookup, modelling JS property access
`settings[key]`, which yields `undefined` (here `none`) for a missing key. -/
def jsLookup (settings : List (String × ℤ)) (key : String) : Option ℤ :=
  (settings.find? (fun e => e.1 == key)).map Prod.snd

/-- JS `a < b` where `b` may be `undefined`: any comparison with
`undefined` is false. -/
def jsLtQ (a : ℚ) (b : Option ℤ) : Bool :=
  match b with
  | none => false
  | some v => decide (a < (v : ℚ))

/-- JS `a < b` on a numeric left operand and possibly-`undefined` right
operand. -/
def jsLtInt (a : ℤ) (b : Option ℤ) : Bool :=
  match b with
  | none => false
  | some v => decide (a < v)

/-- DEFAULT_SETTINGS from the source. -/
def DEFAULT_SETTINGS : List (String × ℤ) := [("startTime", 0), ("voices", 6)]

/-- The settings guard at the top of `convertMidi`: the provided settings
object is replaced by the defaults whenever its number of keys differs from
the number of keys of CONVERTER_SETTINGS_INFO (which is 2); no individual
value is inspected. -/
def resolveSettings (settings : List (String × ℤ)) : List (String × ℤ) :=
  if settings.length ≠ 2 then DEFAULT_SETTINGS else settings

/-- CONVERTER_ERRORS.NO_NOTES_FOUND from the source. -/
def NO_NOTES_FOUND : String := "Error: no notes found in MIDI file in the given time range.\n"

/-- CONVERTER_WARNINGS.TYPE_0_FILE from the source. -/
def TYPE_0_FILE_WARNING : String :=
  "WARNING: The processed file is a type 0 file and may have been converted incorrectly.\n"

/-- Mutable state of the `readMidiData` loops: the insertion-ordered chord
map and the two counters. -/
structure AggState where
  chords : List (ℤ × List Nat)
  skippedNotes : Nat
  transposedNotes : Nat
deriving DecidableEq

/-- `chords.get(key)` on the insertion-ordered map. -/
def lookupChord (chords : List (ℤ × List Nat)) (key : ℤ) : Option (List Nat) :=
  (chords.find? (fun e => e.1 == key)).map Prod.snd

/-- In-place mutation `chords.get(key).push(p)` modelled as replacing the
value stored at `key` (position in the map unchanged). -/
def updateChord (chords : List (ℤ × List Nat)) (key : ℤ) (v : List Nat) :
    List (ℤ × List Nat) :=
  chords.map (fun e => if e.1 == key then (e.1, v) else e)

/-- The chord-map update of `readMidiData` for one retained note: insert the
pitch if the chord at `key` does not contain it and still has fewer than
`voices` pitches; count a skip if the chord is full; create a new singleton
chord for a fresh key. -/
def addPitchToChords (voicesSetting : Option ℤ) (chords : List (ℤ × List Nat))
    (skipped : Nat) (key : ℤ) (p : Nat) : List (ℤ × List Nat) × Nat :=
  match lookupChord chords key with
  | some ps =>
    if ps.contains p then (chords, skipped)
    else if jsLtInt (ps.length : ℤ) voicesSetting then
      (updateChord chords key (ps ++ [p]), skipped)
    else (chords, skipped + 1)
  | none => (chords ++ [(key, [p])], skipped)

/-- Processing of one note inside the track loop of `readMidiData`. -/
def processNote (settings : List (String × ℤ)) (st : AggState) (note : NoteEvent) :
    AggState :=
  if note.velocity = 0 then st
  else if jsLtQ note.time (jsLookup settings "startTime") then st
  else
    let outOfRange := note.midi < PIANO_RANGE_MIN ∨ note.midi > PIANO_RANGE_MAX
    let transposedNotes := if outOfRange then st.transposedNotes + 1 else st.transposedNotes
    let notePitch := if outOfRange then transposePitch note.midi else note.midi
    let pitch := (notePitch - PIANO_RANGE_MIN).toNat
    let key := noteTimeKey note.time
    let r := addPitchToChords (jsLookup settings "voices") st.chords st.skippedNotes key pitch
    { chords := r.1, skippedNotes := r.2, transposedNotes := transposedNotes }

/-- Processing of one track of `readMidiData` (the percussion channel 9 is
skipped whole). -/
def processTrack (settings : List (String × ℤ)) (st : AggState) (track : MidiTrack) :
    AggState :=
  if track.channel = 9 then st
  else track.notes.foldl (processNote settings) st

/-- Order on chord-map entries used for the final sort by time. -/
def chordEntryLe (e1 e2 : ℤ × List Nat) : Prop := e1.1 ≤ e2.1

instance : DecidableRel chordEntryLe := fun e1 e2 =>
  inferInstanceAs (Decidable (e1.1 ≤ e2.1))

instance : IsTotal (ℤ × List Nat) chordEntryLe :=
  ⟨fun a b => le_total a.1 b.1⟩

instance : IsTrans (ℤ × List Nat) chordEntryLe :=
  ⟨fun _ _ _ h1 h2 => le_trans h1 h2⟩

/-- Return value of `readMidiData`. -/
structure MidiInfo where
  chords : List (ℤ × List Nat)
  skippedNotes : Nat
  transposedNotes : Nat
  warnings : List String
  errors : List String
deriving DecidableEq

/-- readMidiData from the source: run the track/note loops, then report the
no-notes error or sort the chord map by time, and append the type-0 warning
for single-track files. -/
def readMidiData (mid : MidiFile) (settings : List (String × ℤ)) : MidiInfo :=
  let st := mid.tracks.foldl (processTrack settings) ⟨[], 0, 0⟩
  let errors := if st.chords.length = 0 then [NO_NOTES_FOUND] else []
  let chords := if st.chords.length = 0 then st.chords
    else List.insertionSort chordEntryLe st.chords
  let warnings := if mid.tracks.length = 1 then [TYPE_0_FILE_WARNING] else []
  { chords := chords
    skippedNotes := st.skippedNotes
    transposedNotes := st.transposedNotes
    warnings := warnings
    errors := errors }

/-! ### Rule emitter (writeWorkshopRules) -/

/-- JS array read `songArray[index]` interpolated into a template string:
out-of-range access yields `undefined`, rendered as `"undefined"`. -/
def jsGet (sa : List String) (i : Nat) : String := (sa[i]?).getD "undefined"

/-- Decimal string of a natural number, as JS `toString`. -/
def natToString (n : Nat) : String :=
  String.mk ((natToDigits n).map (fun d => Char.ofNat (48 + d)))

/-- Decimal string of an integer, as JS `toString`. -/
def intToString (z : ℤ) : String :=
  if z < 0 then "-" ++ natToString z.natAbs else natToString z.natAbs

/-- A digit string rendered as text. -/
def digitsToString (ds : List Nat) : String :=
  String.mk (ds.map (fun d => Char.ofNat (48 + d)))

/-- The inner `for (j = 0; j < MAX_OW_ARRAY_SIZE - 1; j++)` loop of
`writeWorkshopRules`, recursing on the number of remaining iterations
(`MAX_OW_ARRAY_SIZE - 1 - j`): it appends `songArray[index]` BEFORE
checking that `index` is still in range, so when a group starts on the last
element the string `", undefined"` is appended once. -/
def innerLoopAux (sa : List String) : Nat → Nat → String → String × Nat
  | 0, index, actions => (actions, index)
  | rem + 1, index, actions =>
    let actions2 := actions ++ ", " ++ jsGet sa index
    if index + 1 ≥ sa.length then (actions2, index + 1)
    else innerLoopAux sa rem (index + 1) actions2

/-- The inner loop started at loop counter `j` (the source always starts it
at `j = 0`). -/
def innerLoop (sa : List String) (j index : Nat) (actions : String) :
    String × Nat :=
  innerLoopAux sa (MAX_OW_ARRAY_SIZE - 1 - j) index actions

/-- The outer `while (index < songArray.length)` loop of
`writeWorkshopRules`, producing one rule per started group.  The fuel
argument only bounds the number of iterations: every iteration advances
`index` by at least one (the inner loop only ever increments it), so with
fuel `sa.length - index` the fuel can only run out once `index ≥ sa.length`,
where the `while` guard fails as well. -/
def arrayRulesAux (arrayName : String) (sa : List String) :
    Nat → Nat → Nat → List String
  | 0, _, _ => []
  | fuel + 1, owArrayIndex, index =>
    if index < sa.length then
      let r := innerLoop sa 0 (index + 1)
        ("Global." ++ arrayName ++ "[" ++ natToString owArrayIndex ++ "] = Array("
          ++ jsGet sa index)
      ("rule(\"" ++ arrayName ++ "\")\x7bevent\x7bOngoing-Global;\x7dactions\x7b"
          ++ r.1 ++ ");\x7d\x7d\n")
        :: arrayRulesAux arrayName sa fuel (owArrayIndex + 1) r.2
    else []

/-- One logical array's `while` loop of `writeWorkshopRules`. -/
def arrayRulesLoop (arrayName : String) (sa : List String)
    (owArrayIndex index : Nat) : List String :=
  arrayRulesAux arrayName sa (sa.length - index) owArrayIndex index

/-- writeWorkshopRules from the source: the configuration rule followed by
the per-array rules, in the fixed array-name order, all joined. -/
def writeWorkshopRules (owArrays : List (String × List String)) (maxVoices : String) :
    String :=
  let firstRule := "rule(\"Max amount of bots required\")\x7bevent\x7bOngoing-Global;\x7d"
    ++ "actions\x7bGlobal.maxBots = " ++ maxVoices ++ ";Global.maxArraySize = "
    ++ natToString MAX_OW_ARRAY_SIZE ++ ";\n    Global.compressedElementSize = "
    ++ natToString COMPRESSED_ELEMENT_LENGTH ++ ";\x7d\x7d\n"
  String.join (firstRule :: (owArrays.map (fun e => arrayRulesLoop e.1 e.2 0 0)).flatten)

/-! ### convertMidi -/

/-- ConversionResult of the data model; `stopTime` is `none` exactly when
the source would return `undefined` (reading `stopTime` of the empty
`arrayInfo` object). -/
structure ConversionResult where
  rules : String
  skippedNotes : Nat
  transposedNotes : Nat
  duration : ℚ
  stopTime : Option ℤ
  warnings : List String
  errors : List String
deriving DecidableEq

/-- The three raw streams under their array names, rendered as the strings
the emitter interpolates. -/
def owArraysToStringArrays (raw : OwArraysN) : List (String × List String) :=
  [("pitchArrays", raw.pitchArrays.map natToString),
   ("timeArrays", raw.timeArrays.map natToString),
   ("chordArrays", raw.chordArrays.map natToString)]

/-- The three packed streams under their array names; packed elements are
already digit strings. -/
def compressedToStringArrays (c : CompressedArrays) : List (String × List String) :=
  [("pitchArrays", c.pitchArrays.map digitsToString),
   ("timeArrays", c.timeArrays.map digitsToString),
   ("chordArrays", c.chordArrays.map digitsToString)]

/-- A possibly-`undefined` numeric value interpolated into a template
string. -/
def jsValToString (v : Option ℤ) : String :=
  match v with
  | none => "undefined"
  | some z => intToString z

/-- convertMidi from the source: settings fallback, aggregation, and — only
when at least one chord was formed — the builder, the optional packer and
the emitter; otherwise `rules` stays empty and `stopTime` undefined. -/
def convertMidi (mid : MidiFile) (settings0 : List (String × ℤ))
    (compressionEnabled : Bool) : ConversionResult :=
  let settings := resolveSettings settings0
  let midiInfo := readMidiData mid settings
  if midiInfo.chords.length ≠ 0 then
    let arrayInfo := convertToArray midiInfo.chords compressionEnabled
    let entries := if compressionEnabled
      then compressedToStringArrays (compressSongArrays arrayInfo.1)
      else owArraysToStringArrays arrayInfo.1
    let rules := writeWorkshopRules entries (jsValToString (jsLookup settings "voices"))
    { rules := rules
      skippedNotes := midiInfo.skippedNotes
      transposedNotes := midiInfo.transposedNotes
      duration := mid.duration
      stopTime := some arrayInfo.2
      warnings := midiInfo.warnings
      errors := midiInfo.errors }
  else
    { rules := ""
      skippedNotes := midiInfo.skippedNotes
      transposedNotes := midiInfo.transposedNotes
      duration := mid.duration
      stopTime := none
      warnings := midiInfo.warnings
      errors := midiInfo.errors }

/-! ### Lemmas about digit strings and chunking -/

theorem natToDigitsAux_congr :
    ∀ (f1 f2 n : Nat), n < f1 → n < f2 → natToDigitsAux f1 n = natToDigitsAux f2 n := by
  intro f1
  induction f1 with
  | zero => omega
  | succ f1 ih =>
    intro f2 n h1 h2
    cases f2 with
    | zero => omega
    | succ f2 =>
      simp only [natToDigitsAux]
      split

      · rfl
      · rename_i hge
        have hdiv : n / 10 < n := Nat.div_lt_self (by omega) (by omega)
        rw [ih f2 (n / 10) (by omega) (by omega)]

/-- The defining recursion of `natToDigits`. -/
theorem natToDigits_unfold (n : Nat) :
    natToDigits n = if n < 10 then [n] else natToDigits (n / 10) ++ [n % 10] := by
  unfold natToDigits
  rw [natToDigitsAux]
  split
  · rfl
  · rename_i hge
    have hdiv : n / 10 < n := Nat.div_lt_self (by omega) (by omega)
    rw [natToDigitsAux_congr n (n / 10 + 1) (n / 10) (by omega) (by omega)]

theorem chunksAux_congr :
    ∀ (f1 f2 k : Nat) (l : List α), l.length < f1 → l.length < f2 →
      chunksAux f1 k l = chunksAux f2 k l := by
  intro f1
  induction f1 with
  | zero => omega
  | succ f1 ih =>
    intro f2 k l h1 h2
    cases f2 with
    | zero => omega
    | succ f2 =>
      simp only [chunksAux]
      split
      · rfl
      · rename_i hcond
        push_neg at hcond
        have hlen : (l.drop k).length = l.length - k := List.length_drop k l
        rw [ih f2 k (l.drop k) (by omega) (by omega)]

/-- The defining recursion of `chunks`. -/
theorem chunks_unfold (k : Nat) (l : List α) :
    chunks k l = if l.length = 0 ∨ k = 0 then [] else l.take k :: chunks k (l.drop k) := by
  unfold chunks
  rw [chunksAux]
  split
  · rfl
  · rename_i hcond
    push_neg at hcond
    have hlen : (l.drop k).length = l.length - k := List.length_drop k l
    rw [chunksAux_congr l.length ((l.drop k).length + 1) k (l.drop k) (by omega) (by omega)]

theorem natToDigits_ne_nil (n : Nat) : natToDigits n ≠ [] := by
  rw [natToDigits_unfold]
  split <;> simp

theorem digitsToNat_append_single (l : List Nat) (x : Nat) :
    digitsToNat (l ++ [x]) = 10 * digitsToNat l + x := by
  simp [digitsToNat, List.foldl_append]
  ring

theorem digitsToNat_natToDigits (n : Nat) : digitsToNat (natToDigits n) = n := by
  induction n using Nat.strong_induction_on with
  | _ n ih =>
    rw [natToDigits_unfold]
    split
    · simp [digitsToNat]
    · rw [digitsToNat_append_single, ih (n / 10) (Nat.div_lt_self (by omega) (by omega))]
      omega

theorem natToDigits_length_le (w : Nat) (hw : 1 ≤ w) :
    ∀ n, n < 10 ^ w → (natToDigits n).length ≤ w := by
  induction w with
  | zero => omega
  | succ w ihw =>
    intro n hn
    rw [natToDigits_unfold]
    split
    · simp
    · rename_i hbig
      have hw1 : 1 ≤ w := by
        rcases Nat.eq_zero_or_pos w with h0 | h1
        · subst h0; simp at hn; omega
        · exact h1
      have hdiv : n / 10 < 10 ^ w := by
        have hpow : (10 : Nat) ^ (w + 1) = 10 * 10 ^ w := by ring
        rw [hpow] at hn
        exact Nat.div_lt_of_lt_mul (by omega)
      have := ihw hw1 (n / 10) hdiv
      simp only [List.length_append, List.length_cons, List.length_nil]
      omega

theorem digitsToNat_padZeros (w : Nat) (ds : List Nat) :
    digitsToNat (padZeros w ds) = digitsToNat ds := by
  unfold padZeros digitsToNat
  rw [List.foldl_append]
  have : ∀ k, List.foldl (fun a d => a * 10 + d) 0 (List.replicate k 0) = 0 := by
    intro k
    induction k with
    | zero => simp
    | succ k ih => simpa [List.replicate_succ] using ih
  rw [this]

theorem padZeros_length (w : Nat) (ds : List Nat) (h : ds.length ≤ w) :
    (padZeros w ds).length = w := by
  simp [padZeros]
  omega

theorem chunks_nil (k : Nat) : chunks k ([] : List α) = [] := by
  rw [chunks_unfold]
  simp

theorem flatten_chunks_aux (k : Nat) (hk : k ≠ 0) :
    ∀ (n : Nat) (l : List α), l.length ≤ n → (chunks k l).flatten = l := by
  intro n
  induction n with
  | zero =>
    intro l hl
    have hnil : l = [] := by
      cases l with
      | nil => rfl
      | cons a t => simp at hl
    subst hnil
    simp [chunks_nil]
  | succ n ih =>
    intro l hl
    rw [chunks_unfold]
    split
    · rename_i h
      rcases h with h | h
      · simp [List.length_eq_zero.mp h]
      · exact absurd h hk
    · rename_i h
      push_neg at h
      simp only [List.flatten_cons]
      rw [ih (l.drop k) (by simp only [List.length_drop]; omega)]
      exact List.take_append_drop k l

/-- Concatenating the chunks of a list gives the list back. -/
theorem flatten_chunks (k : Nat) (hk : k ≠ 0) (l : List α) :
    (chunks k l).flatten = l :=
  flatten_chunks_aux k hk l.length l le_rfl

/-- Chunking a concatenation of pieces of length exactly `k` recovers the
pieces. -/
theorem chunks_flatten_of_uniform (k : Nat) (hk : 0 < k) :
    ∀ ps : List (List α), (∀ p ∈ ps, p.length = k) → chunks k ps.flatten = ps := by
  intro ps
  induction ps with
  | nil => intro _; simp [chunks_nil]
  | cons p rest ih =>
    intro hall
    have hp : p.length = k := hall p (by simp)
    rw [List.flatten_cons, chunks_unfold]
    split
    · rename_i h
      rcases h with h | h
      · simp only [List.length_append] at h
        omega
      · omega
    · rw [← hp, List.take_left, List.drop_left, hp]
      rw [ih (fun q hq => hall q (by simp [hq]))]

theorem chunks_length_eq (k : Nat) (hk : 0 < k) :
    ∀ (n : Nat) (l : List α), l.length ≤ n →
      (chunks k l).length = ceilDivNat l.length k := by
  intro n
  induction n with
  | zero =>
    intro l hl
    have hnil : l = [] := by
      cases l with
      | nil => rfl
      | cons a t => simp at hl
    subst hnil
    rw [chunks_nil]
    simp only [List.length_nil, ceilDivNat]
    exact (Nat.div_eq_of_lt (by omega)).symm
  | succ n ih =>
    intro l hl
    rw [chunks_unfold]
    split
    · rename_i h
      rcases h with h | h
      · rw [h]
        simp only [List.length_nil, ceilDivNat]
        exact (Nat.div_eq_of_lt (by omega)).symm
      · omega
    · rename_i h
      push_neg at h
      simp only [List.length_cons]
      rw [ih (l.drop k) (by simp only [List.length_drop]; omega)]
      simp only [List.length_drop]
      unfold ceilDivNat
      rcases le_or_lt l.length k with hle | hgt
      · have h1 : l.length - k = 0 := by omega
        rw [h1]
        have h2 : (0 + k - 1) / k = 0 := Nat.div_eq_of_lt (by omega)
        have h3 : l.length + k - 1 = (l.length - 1) + k := by omega
        rw [h2, h3, Nat.add_div_right _ hk, Nat.div_eq_of_lt (by omega)]
      · have h3 : l.length + k - 1 = ((l.length - k) + k - 1) + k := by omega
        rw [h3, Nat.add_div_right _ hk]

/-- Length of a packed stream: when every element fits in `w` digits, the
buffer has `w * n` digits and slicing yields `⌈w * n / 7⌉` packed elements. -/
theorem compressStream_length (w : Nat) (hw : 1 ≤ w) (s : List Nat)
    (hs : ∀ x ∈ s, x < 10 ^ w) :
    (compressStream w s).length = ceilDivNat (w * s.length) COMPRESSED_ELEMENT_LENGTH := by
  unfold compressStream
  have hsum : ∀ t : List Nat, ((t.map (fun _ => w)).sum = w * t.length) := by
    intro t
    induction t with
    | nil => simp
    | cons a t ih => simp [ih]; ring
  have hjoin : ((s.map (fun x => padZeros w (natToDigits x))).flatten).length = w * s.length := by
    rw [List.length_flatten]
    have hmap : (s.map (fun x => padZeros w (natToDigits x))).map List.length
        = s.map (fun _ => w) := by
      rw [List.map_map]
      apply List.map_congr_left
      intro x hx
      exact padZeros_length w _ (natToDigits_length_le w hw x (hs x hx))
    rw [hmap, hsum]
  rw [chunks_length_eq COMPRESSED_ELEMENT_LENGTH (by decide)
        ((s.map (fun x => padZeros w (natToDigits x))).flatten).length _ le_rfl, hjoin]

/-- Round-trip on one stream: decoding a packed stream at its field width
recovers the original elements when they all fit in `w` digits. -/
theorem decodeStream_compressStream (w : Nat) (hw : 1 ≤ w) (s : List Nat)
    (hs : ∀ x ∈ s, x < 10 ^ w) :
    decodeStream w (compressStream w s) = s := by
  unfold decodeStream compressStream
  rw [flatten_chunks COMPRESSED_ELEMENT_LENGTH (by decide)]
  rw [chunks_flatten_of_uniform w hw _ (by
    intro p hp
    rcases List.mem_map.mp hp with ⟨x, hx, rfl⟩
    exact padZeros_length w _ (natToDigits_length_le w hw x (hs x hx)))]
  rw [List.map_map]
  have : (fun x => digitsToNat (padZeros w (natToDigits x))) = (id : Nat → Nat) := by
    funext x
    simp [digitsToNat_padZeros, digitsToNat_natToDigits, id]
  simp only [Function.comp_def]
  rw [show ((fun x => digitsToNat (padZeros w (natToDigits x)))) = (id : Nat → Nat) from this]
  simp

/-- C1: for streams whose elements respect the per-stream field widths
(pitch ≤ 99, delay ≤ 9999, chord size ≤ 9), decoding the packed output of
`compressSongArrays` by fixed-width fields (2 / 4 / 1 digits) reproduces the
original pitches, delays and chord sizes exactly. -/
theorem compress_decode_roundtrip (a : OwArraysN)
    (hp : ∀ x ∈ a.pitchArrays, x ≤ 99)
    (hd : ∀ x ∈ a.timeArrays, x ≤ 9999)
    (hc : ∀ x ∈ a.chordArrays, x ≤ 9) :
    decodeStream PITCH_ELEMENT_LENGTH (compressSongArrays a).pitchArrays = a.pitchArrays ∧
    decodeStream TIME_ELEMENT_LENGTH (compressSongArrays a).timeArrays = a.timeArrays ∧
    decodeStream CHORD_ELEMENT_LENGTH (compressSongArrays a).chordArrays = a.chordArrays := by
  refine ⟨?_, ?_, ?_⟩
  · exact decodeStream_compressStream _ (by decide) _
      (fun x hx => by have := hp x hx; norm_num [PITCH_ELEMENT_LENGTH]; omega)
  · exact decodeStream_compressStream _ (by decide) _
      (fun x hx => by have := hd x hx; norm_num [TIME_ELEMENT_LENGTH]; omega)
  · exact decodeStream_compressStream _ (by decide) _
      (fun x hx => by have := hc x hx; norm_num [CHORD_ELEMENT_LENGTH]; omega)

/-- C1 witness: the round-trip at the spec's example streams. -/
theorem compress_decode_roundtrip_witness :
    decodeStream PITCH_ELEMENT_LENGTH
        (compressSongArrays ⟨[36, 40, 43], [0, 500], [2, 1]⟩).pitchArrays = [36, 40, 43] ∧
    decodeStream TIME_ELEMENT_LENGTH
        (compressSongArrays ⟨[36, 40, 43], [0, 500], [2, 1]⟩).timeArrays = [0, 500] ∧
    decodeStream CHORD_ELEMENT_LENGTH
        (compressSongArrays ⟨[36, 40, 43], [0, 500], [2, 1]⟩).chordArrays = [2, 1] :=
  compress_decode_roundtrip ⟨[36, 40, 43], [0, 500], [2, 1]⟩
    (by decide) (by decide) (by decide)

/-! ### Lemmas about the array builder -/

theorem jsSortPitches_length (ps : List Nat) : (jsSortPitches ps).length = ps.length :=
  (List.perm_insertionSort strLe ps).length_eq

theorem jsSortPitches_mem (ps : List Nat) (x : Nat) :
    x ∈ jsSortPitches ps ↔ x ∈ ps :=
  (List.perm_insertionSort strLe ps).mem_iff

theorem convertToArrayGo_parallel (ceB : Bool) (chords : List (ℤ × List Nat)) :
    ∀ (prev : ℤ) (pe te ce : Nat),
      ((convertToArrayGo ceB prev pe te ce chords).1.chordArrays).sum
          = (convertToArrayGo ceB prev pe te ce chords).1.pitchArrays.length ∧
      (convertToArrayGo ceB prev pe te ce chords).1.timeArrays.length
          = (convertToArrayGo ceB prev pe te ce chords).1.chordArrays.length := by
  induction chords with
  | nil =>
    intro prev pe te ce
    simp [convertToArrayGo]
  | cons c rest ih =>
    intro prev pe te ce
    obtain ⟨t, ps⟩ := c
    have h := ih t (pe + ps.length) (te + 1) (ce + 1)
    simp only [convertToArrayGo]
    split <;> split
    all_goals
      first
        | (simp only [jsSortPitches_length, List.sum_cons, List.length_append,
             List.length_cons]
           omega)
        | (simp [jsSortPitches_length]
           omega)
        | simp

/-- C4: after the array builder, the chord sizes sum to the number of
emitted pitches, and there are as many delays as chord sizes. -/
theorem builder_parallel_streams (chords : List (ℤ × List Nat)) (compressionEnabled : Bool) :
    ((convertToArray chords compressionEnabled).1.chordArrays).sum
        = (convertToArray chords compressionEnabled).1.pitchArrays.length ∧
    (convertToArray chords compressionEnabled).1.timeArrays.length
        = (convertToArray chords compressionEnabled).1.chordArrays.length := by
  unfold convertToArray
  exact convertToArrayGo_parallel compressionEnabled chords _ 0 0 0

theorem ceilDivNat_mono (k : Nat) {a b : Nat} (h : a ≤ b) :
    ceilDivNat a k ≤ ceilDivNat b k :=
  Nat.div_le_div_right (by omega)

theorem convertToArrayGo_raw_bound (chords : List (ℤ × List Nat)) :
    ∀ (prev : ℤ) (pe te ce : Nat),
      pe + te + ce ≤ MAX_TOTAL_ARRAY_ELEMENTS →
      (pe + (convertToArrayGo false prev pe te ce chords).1.pitchArrays.length)
        + (te + (convertToArrayGo false prev pe te ce chords).1.timeArrays.length)
        + (ce + (convertToArrayGo false prev pe te ce chords).1.chordArrays.length)
        ≤ MAX_TOTAL_ARRAY_ELEMENTS := by
  induction chords with
  | nil =>
    intro prev pe te ce h
    simpa [convertToArrayGo] using h
  | cons c rest ih =>
    intro prev pe te ce h
    obtain ⟨t, ps⟩ := c
    simp only [convertToArrayGo, Bool.false_eq_true, if_false]
    split
    · simpa using h
    · rename_i hsz
      have hle : pe + ps.length + (te + 1) + (ce + 1) ≤ MAX_TOTAL_ARRAY_ELEMENTS := by
        omega
      have h2 := ih t (pe + ps.length) (te + 1) (ce + 1) hle
      simp only [List.length_append, List.length_cons, jsSortPitches_length]
      omega

theorem convertToArrayGo_est_bound (chords : List (ℤ × List Nat)) :
    ∀ (prev : ℤ) (pe te ce : Nat),
      ceilDivNat (pe * PITCH_ELEMENT_LENGTH + te * TIME_ELEMENT_LENGTH
          + ce * CHORD_ELEMENT_LENGTH) COMPRESSED_ELEMENT_LENGTH
        ≤ MAX_TOTAL_ARRAY_ELEMENTS →
      ceilDivNat ((pe + (convertToArrayGo true prev pe te ce chords).1.pitchArrays.length)
            * PITCH_ELEMENT_LENGTH
          + (te + (convertToArrayGo true prev pe te ce chords).1.timeArrays.length)
            * TIME_ELEMENT_LENGTH
          + (ce + (convertToArrayGo true prev pe te ce chords).1.chordArrays.length)
            * CHORD_ELEMENT_LENGTH) COMPRESSED_ELEMENT_LENGTH
        ≤ MAX_TOTAL_ARRAY_ELEMENTS := by
  induction chords with
  | nil =>
    intro prev pe te ce h
    simpa [convertToArrayGo] using h
  | cons c rest ih =>
    intro prev pe te ce h
    obtain ⟨t, ps⟩ := c
    simp only [convertToArrayGo, if_true]
    split
    · simpa using h
    · rename_i hsz
      push_neg at hsz
      have h2 := ih t (pe + ps.length) (te + 1) (ce + 1) hsz
      simp only [List.length_append, List.length_cons, jsSortPitches_length]
      have harg : (pe + (ps.length
              + (convertToArrayGo true t (pe + ps.length) (te + 1) (ce + 1) rest).1.pitchArrays.length))
            * PITCH_ELEMENT_LENGTH
          + (te + ((convertToArrayGo true t (pe + ps.length) (te + 1) (ce + 1) rest).1.timeArrays.length + 1))
            * TIME_ELEMENT_LENGTH
          + (ce + ((convertToArrayGo true t (pe + ps.length) (te + 1) (ce + 1) rest).1.chordArrays.length + 1))
            * CHORD_ELEMENT_LENGTH
          = (pe + ps.length
              + (convertToArrayGo true t (pe + ps.length) (te + 1) (ce + 1) rest).1.pitchArrays.length)
            * PITCH_ELEMENT_LENGTH
          + (te + 1 + (convertToArrayGo true t (pe + ps.length) (te + 1) (ce + 1) rest).1.timeArrays.length)
            * TIME_ELEMENT_LENGTH
          + (ce + 1 + (convertToArrayGo true t (pe + ps.length) (te + 1) (ce + 1) rest).1.chordArrays.length)
            * CHORD_ELEMENT_LENGTH := by
        ring
      rw [harg]
      exact h2

/-- C2 (amended): the quantity the builder actually bounds never exceeds
the configured maximum — the raw element count when compression is
disabled, and the compressed-size estimate
`⌈(2·pitches + 4·delays + 1·chordSizes) / 7⌉` when compression is enabled.
(The true packed element count can exceed the maximum; see the
counterexample.) -/
theorem builder_budget_amended (chords : List (ℤ × List Nat)) :
    ((convertToArray chords false).1.pitchArrays.length
        + (convertToArray chords false).1.timeArrays.length
        + (convertToArray chords false).1.chordArrays.length
        ≤ MAX_TOTAL_ARRAY_ELEMENTS) ∧
    (ceilDivNat ((convertToArray chords true).1.pitchArrays.length * PITCH_ELEMENT_LENGTH
        + (convertToArray chords true).1.timeArrays.length * TIME_ELEMENT_LENGTH
        + (convertToArray chords true).1.chordArrays.length * CHORD_ELEMENT_LENGTH)
      COMPRESSED_ELEMENT_LENGTH ≤ MAX_TOTAL_ARRAY_ELEMENTS) := by
  constructor
  · have h := convertToArrayGo_raw_bound chords
      (((chords.head?).map Prod.fst).getD 0) 0 0 0 (by simp [MAX_TOTAL_ARRAY_ELEMENTS])
    unfold convertToArray
    simpa using h
  · have h := convertToArrayGo_est_bound chords
      (((chords.head?).map Prod.fst).getD 0) 0 0 0 (by decide)
    unfold convertToArray
    simpa using h

/-! ### Full-commit characterization of the builder and the C2
counterexample -/

theorem pitchTotal_cons (t : ℤ) (ps : List Nat) (rest : List (ℤ × List Nat)) :
    pitchTotal ((t, ps) :: rest) = ps.length + pitchTotal rest := by
  simp [pitchTotal]

theorem convertToArrayGo_complete (chords : List (ℤ × List Nat)) :
    ∀ (prev : ℤ) (pe te ce : Nat),
      ceilDivNat ((pe + pitchTotal chords) * PITCH_ELEMENT_LENGTH
          + (te + chords.length) * TIME_ELEMENT_LENGTH
          + (ce + chords.length) * CHORD_ELEMENT_LENGTH) COMPRESSED_ELEMENT_LENGTH
        ≤ MAX_TOTAL_ARRAY_ELEMENTS →
      convertToArrayGo true prev pe te ce chords = (fullStreams prev chords, 0) := by
  induction chords with
  | nil =>
    intro prev pe te ce _
    rfl
  | cons c rest ih =>
    intro prev pe te ce h
    obtain ⟨t, ps⟩ := c
    rw [pitchTotal_cons, List.length_cons] at h
    have harg : ((pe + ps.length) + pitchTotal rest) * PITCH_ELEMENT_LENGTH
        + ((te + 1) + rest.length) * TIME_ELEMENT_LENGTH
        + ((ce + 1) + rest.length) * CHORD_ELEMENT_LENGTH
        = (pe + (ps.length + pitchTotal rest)) * PITCH_ELEMENT_LENGTH
        + (te + (rest.length + 1)) * TIME_ELEMENT_LENGTH
        + (ce + (rest.length + 1)) * CHORD_ELEMENT_LENGTH := by
      ring
    have hih := ih t (pe + ps.length) (te + 1) (ce + 1) (by rw [harg]; exact h)
    have hstep : ¬ (ceilDivNat ((pe + ps.length) * PITCH_ELEMENT_LENGTH
        + (te + 1) * TIME_ELEMENT_LENGTH + (ce + 1) * CHORD_ELEMENT_LENGTH)
        COMPRESSED_ELEMENT_LENGTH > MAX_TOTAL_ARRAY_ELEMENTS) := by
      push_neg
      refine le_trans (ceilDivNat_mono _ ?_) h
      simp only [PITCH_ELEMENT_LENGTH, TIME_ELEMENT_LENGTH, CHORD_ELEMENT_LENGTH]
      have hpt : 0 ≤ pitchTotal rest := Nat.zero_le _
      omega
    simp only [convertToArrayGo, fullStreams, reduceIte]
    rw [if_neg hstep, hih]

theorem fullStreams_time_length (chords : List (ℤ × List Nat)) :
    ∀ prev, (fullStreams prev chords).timeArrays.length = chords.length := by
  induction chords with
  | nil => intro prev; rfl
  | cons c rest ih =>
    intro prev
    obtain ⟨t, ps⟩ := c
    simp [fullStreams, ih]

theorem fullStreams_chord_length (chords : List (ℤ × List Nat)) :
    ∀ prev, (fullStreams prev chords).chordArrays.length = chords.length := by
  induction chords with
  | nil => intro prev; rfl
  | cons c rest ih =>
    intro prev
    obtain ⟨t, ps⟩ := c
    simp [fullStreams, ih]

theorem fullStreams_pitch_length (chords : List (ℤ × List Nat)) :
    ∀ prev, (fullStreams prev chords).pitchArrays.length = pitchTotal chords := by
  induction chords with
  | nil => intro prev; rfl
  | cons c rest ih =>
    intro prev
    obtain ⟨t, ps⟩ := c
    simp [fullStreams, pitchTotal_cons, jsSortPitches_length, ih]

theorem fullStreams_time_le (chords : List (ℤ × List Nat)) :
    ∀ prev x, x ∈ (fullStreams prev chords).timeArrays → x ≤ 9999 := by
  induction chords with
  | nil => intro prev x hx; simp [fullStreams] at hx
  | cons c rest ih =>
    intro prev x hx
    obtain ⟨t, ps⟩ := c
    simp only [fullStreams, List.mem_cons] at hx
    rcases hx with rfl | hx
    · have h2 : min (t - prev) MAX_TIME_INTERVAL ≤ MAX_TIME_INTERVAL := min_le_right _ _
      simp only [MAX_TIME_INTERVAL] at h2 ⊢
      omega
    · exact ih t x hx

theorem fullStreams_chord_mem (chords : List (ℤ × List Nat)) :
    ∀ prev x, x ∈ (fullStreams prev chords).chordArrays →
      ∃ c ∈ chords, x = c.2.length := by
  induction chords with
  | nil => intro prev x hx; simp [fullStreams] at hx
  | cons c rest ih =>
    intro prev x hx
    obtain ⟨t, ps⟩ := c
    simp only [fullStreams, List.mem_cons] at hx
    rcases hx with rfl | hx
    · exact ⟨(t, ps), by simp⟩
    · obtain ⟨c2, hc2, hx2⟩ := ih t x hx
      exact ⟨c2, by simp [hc2], hx2⟩

theorem fullStreams_pitch_mem (chords : List (ℤ × List Nat)) :
    ∀ prev x, x ∈ (fullStreams prev chords).pitchArrays →
      ∃ c ∈ chords, x ∈ c.2 := by
  induction chords with
  | nil => intro prev x hx; simp [fullStreams] at hx
  | cons c rest ih =>
    intro prev x hx
    obtain ⟨t, ps⟩ := c
    simp only [fullStreams, List.mem_append] at hx
    rcases hx with hx | hx
    · exact ⟨(t, ps), by simp, (jsSortPitches_mem ps x).mp hx⟩
    · obtain ⟨c2, hc2, hx2⟩ := ih t x hx
      exact ⟨c2, by simp [hc2], hx2⟩

theorem listSumMapConst {α : Type} (l : List α) (c : Nat) :
    (l.map (fun _ => c)).sum = c * l.length := by
  induction l with
  | nil => simp
  | cons a t ih =>
    simp only [List.map_cons, List.sum_cons, List.length_cons, ih]
    ring

theorem cex2_length : cex2Chords.length = 4489 := by
  rw [cex2Chords]
  rw [List.length_append, List.length_map, List.length_map, List.length_range,
    List.length_range]

theorem cex2_pitchTotal : pitchTotal cex2Chords = 20276 := by
  rw [pitchTotal, cex2Chords, List.map_append, List.sum_append, List.map_map,
    List.map_map]
  have h1 : ((fun (c : ℤ × List Nat) => c.2.length)
      ∘ (fun i : Nat => (((i : ℤ) + 1) * 1000, ([10, 11, 12, 13, 14] : List Nat))))
      = fun (_ : Nat) => 5 := by
    funext i
    rfl
  have h2 : ((fun (c : ℤ × List Nat) => c.2.length)
      ∘ (fun i : Nat => (((i : ℤ) + 2321) * 1000, ([20, 21, 22, 23] : List Nat))))
      = fun (_ : Nat) => 4 := by
    funext i
    rfl
  rw [h1, h2, listSumMapConst, listSumMapConst, List.length_range, List.length_range]

theorem cex2_est : ceilDivNat ((0 + pitchTotal cex2Chords) * PITCH_ELEMENT_LENGTH
    + (0 + cex2Chords.length) * TIME_ELEMENT_LENGTH
    + (0 + cex2Chords.length) * CHORD_ELEMENT_LENGTH) COMPRESSED_ELEMENT_LENGTH
    ≤ MAX_TOTAL_ARRAY_ELEMENTS := by
  rw [cex2_pitchTotal, cex2_length]
  decide

theorem cex2_pitch_bound : ∀ c ∈ cex2Chords, ∀ x ∈ c.2, x < 10 ^ PITCH_ELEMENT_LENGTH := by
  intro c hc x hx
  rw [cex2Chords] at hc
  rcases List.mem_append.mp hc with h | h <;>
    obtain ⟨i, _, rfl⟩ := List.mem_map.mp h <;>
    simp only [PITCH_ELEMENT_LENGTH] <;>
    (simp at hx; omega)

theorem cex2_size_bound : ∀ c ∈ cex2Chords, c.2.length < 10 ^ CHORD_ELEMENT_LENGTH := by
  intro c hc
  rw [cex2Chords] at hc
  rcases List.mem_append.mp hc with h | h <;>
    obtain ⟨i, _, rfl⟩ := List.mem_map.mp h <;>
    simp [CHORD_ELEMENT_LENGTH]

/-- C2 counterexample: on `cex2Chords` (with compression enabled) every
chord is committed — the builder's estimate is exactly 9000 — yet the
packed arrays emitted by the pipeline hold 5794 + 2566 + 642 = 9002
elements, exceeding MAX_TOTAL_ARRAY_ELEMENTS = 9000. -/
theorem packed_budget_counterexample :
    ¬ ((compressSongArrays (convertToArray cex2Chords true).1).pitchArrays.length
        + (compressSongArrays (convertToArray cex2Chords true).1).timeArrays.length
        + (compressSongArrays (convertToArray cex2Chords true).1).chordArrays.length
        ≤ MAX_TOTAL_ARRAY_ELEMENTS) := by
  have hfull : (convertToArray cex2Chords true).1
      = fullStreams (((cex2Chords.head?).map Prod.fst).getD 0) cex2Chords := by
    have h := convertToArrayGo_complete cex2Chords
      (((cex2Chords.head?).map Prod.fst).getD 0) 0 0 0 cex2_est
    simp only [convertToArray, h]
  have hp : (compressSongArrays (convertToArray cex2Chords true).1).pitchArrays.length
      = 5794 := by
    rw [hfull]
    simp only [compressSongArrays]
    rw [compressStream_length PITCH_ELEMENT_LENGTH (by decide) _ (by
      intro x hx
      obtain ⟨c, hc, hxc⟩ := fullStreams_pitch_mem cex2Chords _ x hx
      exact cex2_pitch_bound c hc x hxc)]
    rw [fullStreams_pitch_length, cex2_pitchTotal]
    decide
  have ht : (compressSongArrays (convertToArray cex2Chords true).1).timeArrays.length
      = 2566 := by
    rw [hfull]
    simp only [compressSongArrays]
    rw [compressStream_length TIME_ELEMENT_LENGTH (by decide) _ (by
      intro x hx
      have := fullStreams_time_le cex2Chords _ x hx
      simp only [TIME_ELEMENT_LENGTH]
      omega)]
    rw [fullStreams_time_length, cex2_length]
    decide
  have hc : (compressSongArrays (convertToArray cex2Chords true).1).chordArrays.length
      = 642 := by
    rw [hfull]
    simp only [compressSongArrays]
    rw [compressStream_length CHORD_ELEMENT_LENGTH (by decide) _ (by
      intro x hx
      obtain ⟨c, hcx, rfl⟩ := fullStreams_chord_mem cex2Chords _ x hx
      exact cex2_size_bound c hcx)]
    rw [fullStreams_chord_length, cex2_length]
    decide
  rw [hp, ht, hc]
  decide

/-! ### C3: per-chord pitch emission -/

theorem convertToArrayGo_pitch_structure (ceB : Bool) (chords : List (ℤ × List Nat)) :
    ∀ (prev : ℤ) (pe te ce : Nat),
      (convertToArrayGo ceB prev pe te ce chords).1.pitchArrays
        = ((builderCommitted ceB pe te ce chords).map (fun c => jsSortPitches c.2)).flatten := by
  induction chords with
  | nil =>
    intro prev pe te ce
    rfl
  | cons c rest ih =>
    intro prev pe te ce
    obtain ⟨t, ps⟩ := c
    simp only [convertToArrayGo, builderCommitted]
    split <;> split
    all_goals simp_all [ih]

theorem mem_updateChord {chords : List (ℤ × List Nat)} {key : ℤ} {v : List Nat} {e}
    (he : e ∈ updateChord chords key v) : e.2 = v ∨ e ∈ chords := by
  unfold updateChord at he
  obtain ⟨c, hc, heq⟩ := List.mem_map.mp he
  by_cases h : c.1 = key
  · left
    rw [← heq]
    simp [h]
  · right
    rw [← heq]
    simp [h]
    exact hc

theorem lookupChord_entry {chords : List (ℤ × List Nat)} {key : ℤ} {ps : List Nat}
    (h : lookupChord chords key = some ps) : ∃ e ∈ chords, e.2 = ps := by
  unfold lookupChord at h
  cases hf : chords.find? (fun e => e.1 == key) with
  | none => rw [hf] at h; simp at h
  | some e =>
    rw [hf] at h
    simp at h
    exact ⟨e, List.mem_of_find?_eq_some hf, h⟩

theorem addPitch_nodup (v : Option ℤ) (chords : List (ℤ × List Nat)) (skipped : Nat)
    (key : ℤ) (p : Nat) (h : ∀ e ∈ chords, e.2.Nodup) :
    ∀ e ∈ (addPitchToChords v chords skipped key p).1, e.2.Nodup := by
  unfold addPitchToChords
  split
  · rename_i ps hl
    split
    · exact h
    · split
      · rename_i hcont hlt
        intro e he
        rcases mem_updateChord he with he2 | he2
        · obtain ⟨e0, he0, he02⟩ := lookupChord_entry hl
          have hpsnodup : ps.Nodup := he02 ▸ h e0 he0
          have hpnotin : p ∉ ps := by
            intro hmem
            exact hcont (List.elem_iff.mpr hmem)
          rw [he2, List.nodup_append]
          exact ⟨hpsnodup, List.nodup_singleton p, by simpa using hpnotin⟩
        · exact h e he2
      · exact h
  · intro e he
    rcases List.mem_append.mp he with he2 | he2
    · exact h e he2
    · simp only [List.mem_singleton] at he2
      rw [he2]
      exact List.nodup_singleton p

theorem processNote_nodup (settings : List (String × ℤ)) (st : AggState)
    (note : NoteEvent) (h : ∀ e ∈ st.chords, e.2.Nodup) :
    ∀ e ∈ (processNote settings st note).chords, e.2.Nodup := by
  unfold processNote
  split
  · exact h
  · split
    · exact h
    · exact addPitch_nodup _ _ _ _ _ h

theorem foldlNotes_nodup (settings : List (String × ℤ)) (notes : List NoteEvent) :
    ∀ st : AggState, (∀ e ∈ st.chords, e.2.Nodup) →
      ∀ e ∈ (notes.foldl (processNote settings) st).chords, e.2.Nodup := by
  induction notes with
  | nil => intro st h; exact h
  | cons n rest ih =>
    intro st h
    exact ih (processNote settings st n) (processNote_nodup settings st n h)

theorem processTrack_nodup (settings : List (String × ℤ)) (st : AggState)
    (track : MidiTrack) (h : ∀ e ∈ st.chords, e.2.Nodup) :
    ∀ e ∈ (processTrack settings st track).chords, e.2.Nodup := by
  unfold processTrack
  split
  · exact h
  · exact foldlNotes_nodup settings track.notes st h

theorem foldlTracks_nodup (settings : List (String × ℤ)) (tracks : List MidiTrack) :
    ∀ st : AggState, (∀ e ∈ st.chords, e.2.Nodup) →
      ∀ e ∈ (tracks.foldl (processTrack settings) st).chords, e.2.Nodup := by
  induction tracks with
  | nil => intro st h; exact h
  | cons tr rest ih =>
    intro st h
    exact ih (processTrack settings st tr) (processTrack_nodup settings st tr h)

theorem readMidiData_chords_nodup (mid : MidiFile) (settings : List (String × ℤ)) :
    ∀ e ∈ (readMidiData mid settings).chords, e.2.Nodup := by
  unfold readMidiData
  intro e he
  simp only at he
  have hbase := foldlTracks_nodup settings mid.tracks ⟨[], 0, 0⟩ (by simp)
  split at he
  · exact hbase e he
  · exact hbase e
      ((List.perm_insertionSort chordEntryLe _).mem_iff.mp he)

/-- C3 (amended): for every chord the aggregator hands to the builder, the
pitches appended to the flattened pitch stream for that chord are
`jsSortPitches` of the chord: a permutation of its pitches, with
distinctness preserved, in ascending lexicographic order of the decimal
string representations — the JS default sort order, which differs from
ascending numeric order once a chord mixes one- and two-digit pitches. -/
theorem chord_pitch_emission (mid : MidiFile) (settings : List (String × ℤ)) (ceB : Bool) :
    ((convertToArray (readMidiData mid settings).chords ceB).1.pitchArrays
      = ((builderCommitted ceB 0 0 0 (readMidiData mid settings).chords).map
          (fun c => jsSortPitches c.2)).flatten) ∧
    (∀ c ∈ (readMidiData mid settings).chords,
      (jsSortPitches c.2).Perm c.2 ∧ (c.2.Nodup → (jsSortPitches c.2).Nodup) ∧
        (jsSortPitches c.2).Nodup ∧ List.Sorted strLe (jsSortPitches c.2)) := by
  constructor
  · simp only [convertToArray]
    exact convertToArrayGo_pitch_structure ceB _ _ 0 0 0
  · intro c hc
    have hperm : (jsSortPitches c.2).Perm c.2 := List.perm_insertionSort strLe c.2
    have hnd : c.2.Nodup := readMidiData_chords_nodup mid settings c hc
    exact ⟨hperm, fun h => hperm.nodup_iff.mpr h, hperm.nodup_iff.mpr hnd,
      List.sorted_insertionSort strLe c.2⟩

/-- C3 counterexample: from two notes (MIDI 33 and 34, i.e. encoded pitches
9 and 10) at time 0, the aggregator forms the chord [9, 10], and the
builder appends [10, 9] — lexicographic string order, not ascending numeric
order. -/
theorem pitch_order_counterexample :
    (readMidiData ⟨[⟨0, [⟨0, 33, 1⟩, ⟨0, 34, 1⟩]⟩], 1⟩ DEFAULT_SETTINGS).chords
        = [(0, [9, 10])] ∧
    (convertToArray [((0 : ℤ), [9, 10])] true).1.pitchArrays = [10, 9] ∧
    ¬ List.Sorted (· ≤ ·) ((convertToArray [((0 : ℤ), [9, 10])] true).1.pitchArrays) := by
  refine ⟨by decide, by decide, by decide⟩

/-- C3 witness: the amended statement applied to that two-note input. -/
theorem chord_pitch_emission_witness :
    (jsSortPitches [9, 10]).Perm [9, 10] ∧ (([9, 10] : List Nat).Nodup → (jsSortPitches [9, 10]).Nodup) ∧
      (jsSortPitches [9, 10]).Nodup ∧ List.Sorted strLe (jsSortPitches [9, 10]) :=
  (chord_pitch_emission ⟨[⟨0, [⟨0, 33, 1⟩, ⟨0, 34, 1⟩]⟩], 1⟩ DEFAULT_SETTINGS true).2
    ((0 : ℤ), [9, 10]) (by decide)

/-! ### C5: voice cap and skipped-note counting -/

theorem addPitch_cap (V : ℤ) (hV : 1 ≤ V) (chords : List (ℤ × List Nat))
    (skipped : Nat) (key : ℤ) (p : Nat)
    (h : ∀ e ∈ chords, (e.2.length : ℤ) ≤ V) :
    ∀ e ∈ (addPitchToChords (some V) chords skipped key p).1, (e.2.length : ℤ) ≤ V := by
  unfold addPitchToChords
  split
  · rename_i ps hl
    split
    · exact h
    · split
      · rename_i hcont hlt
        intro e he
        rcases mem_updateChord he with he2 | he2
        · have hlt2 : (ps.length : ℤ) < V := by
            simpa [jsLtInt] using hlt
          rw [he2]
          simp only [List.length_append, List.length_singleton]
          push_cast
          omega
        · exact h e he2
      · exact h
  · intro e he
    rcases List.mem_append.mp he with he2 | he2
    · exact h e he2
    · simp only [List.mem_singleton] at he2
      rw [he2]
      simp only [List.length_singleton]
      omega

theorem processNote_cap (settings : List (String × ℤ)) (V : ℤ)
    (hv : jsLookup settings "voices" = some V) (hV : 1 ≤ V) (st : AggState)
    (note : NoteEvent) (h : ∀ e ∈ st.chords, (e.2.length : ℤ) ≤ V) :
    ∀ e ∈ (processNote settings st note).chords, (e.2.length : ℤ) ≤ V := by
  unfold processNote
  split
  · exact h
  · split
    · exact h
    · simp only [hv]
      exact addPitch_cap V hV _ _ _ _ h

theorem foldlNotes_cap (settings : List (String × ℤ)) (V : ℤ)
    (hv : jsLookup settings "voices" = some V) (hV : 1 ≤ V) (notes : List NoteEvent) :
    ∀ st : AggState, (∀ e ∈ st.chords, (e.2.length : ℤ) ≤ V) →
      ∀ e ∈ (notes.foldl (processNote settings) st).chords, (e.2.length : ℤ) ≤ V := by
  induction notes with
  | nil => intro st h; exact h
  | cons n rest ih =>
    intro st h
    exact ih (processNote settings st n) (processNote_cap settings V hv hV st n h)

theorem processTrack_cap (settings : List (String × ℤ)) (V : ℤ)
    (hv : jsLookup settings "voices" = some V) (hV : 1 ≤ V) (st : AggState)
    (track : MidiTrack) (h : ∀ e ∈ st.chords, (e.2.length : ℤ) ≤ V) :
    ∀ e ∈ (processTrack settings st track).chords, (e.2.length : ℤ) ≤ V := by
  unfold processTrack
  split
  · exact h
  · exact foldlNotes_cap settings V hv hV track.notes st h

theorem foldlTracks_cap (settings : List (String × ℤ)) (V : ℤ)
    (hv : jsLookup settings "voices" = some V) (hV : 1 ≤ V) (tracks : List MidiTrack) :
    ∀ st : AggState, (∀ e ∈ st.chords, (e.2.length : ℤ) ≤ V) →
      ∀ e ∈ (tracks.foldl (processTrack settings) st).chords, (e.2.length : ℤ) ≤ V := by
  induction tracks with
  | nil => intro st h; exact h
  | cons tr rest ih =>
    intro st h
    exact ih (processTrack settings st tr) (processTrack_cap settings V hv hV st tr h)

/-- C5: with the configured voice limit `V ≥ 1` present in the settings,
(a) no chord of the aggregator's output holds more than `V` pitches; (b) a
new pitch arriving at a chord that already holds `V` pitches leaves the
chord map unchanged and increments the skipped-note counter exactly once;
(c) a duplicate pitch in the same chord leaves the chord map and the
skipped-note counter unchanged. -/
theorem voice_cap (mid : MidiFile) (settings : List (String × ℤ)) (V : ℤ)
    (hv : jsLookup settings "voices" = some V) (hV : 1 ≤ V) :
    (∀ c ∈ (readMidiData mid settings).chords, (c.2.length : ℤ) ≤ V) ∧
    (∀ (chords : List (ℤ × List Nat)) (skipped : Nat) (key : ℤ) (ps : List Nat) (p : Nat),
      lookupChord chords key = some ps → (ps.length : ℤ) = V → p ∉ ps →
        addPitchToChords (some V) chords skipped key p = (chords, skipped + 1)) ∧
    (∀ (chords : List (ℤ × List Nat)) (skipped : Nat) (key : ℤ) (ps : List Nat) (p : Nat),
      lookupChord chords key = some ps → p ∈ ps →
        addPitchToChords (some V) chords skipped key p = (chords, skipped)) := by
  refine ⟨?_, ?_, ?_⟩
  · intro c hc
    unfold readMidiData at hc
    simp only at hc
    have hbase := foldlTracks_cap settings V hv hV mid.tracks ⟨[], 0, 0⟩ (by simp)
    split at hc
    · exact hbase c hc
    · exact hbase c ((List.perm_insertionSort chordEntryLe _).mem_iff.mp hc)
  · intro chords skipped key ps p hlk hlen hpnot
    unfold addPitchToChords
    rw [hlk]
    have hc1 : ¬ (ps.contains p = true) := fun hc => hpnot (List.elem_iff.mp hc)
    have hc2 : ¬ (jsLtInt (ps.length : ℤ) (some V) = true) := by
      simp [jsLtInt]
      omega
    simp [hc1, hc2]
    exact hpnot
  · intro chords skipped key ps p hlk hpmem
    unfold addPitchToChords
    rw [hlk]
    have hc1 : ps.contains p = true := List.elem_iff.mpr hpmem
    simp [hc1]
    intro hx
    exact absurd hpmem hx

/-- C5 witness: a full chord of six pitches with `voices = 6` rejects a
seventh pitch, counting it as skipped. -/
theorem voice_cap_witness :
    addPitchToChords (some 6) [((0 : ℤ), [1, 2, 3, 4, 5, 6])] 0 0 7
      = ([((0 : ℤ), [1, 2, 3, 4, 5, 6])], 1) :=
  (voice_cap ⟨[], 0⟩ DEFAULT_SETTINGS 6 (by decide) (by decide)).2.1
    [((0 : ℤ), [1, 2, 3, 4, 5, 6])] 0 0 [1, 2, 3, 4, 5, 6] 7
    (by decide) (by decide) (by decide)

/-! ### C7 and C10: the no-notes error path -/

theorem readMidiData_errors_of_empty (mid : MidiFile) (settings : List (String × ℤ))
    (h : (readMidiData mid settings).chords.length = 0) :
    (readMidiData mid settings).errors = [NO_NOTES_FOUND] := by
  unfold readMidiData at h ⊢
  simp only at h ⊢
  by_cases hst : (mid.tracks.foldl (processTrack settings) ⟨[], 0, 0⟩).chords.length = 0
  · simp [hst]
  · rw [if_neg hst] at h
    rw [(List.perm_insertionSort chordEntryLe _).length_eq] at h
    exact absurd h hst

/-- C7: when the aggregator forms no chord, the conversion reports the
no-notes error, emits empty rule text, and the downstream stages never run
(`stopTime` keeps no value). -/
theorem no_notes_shortcircuit (mid : MidiFile) (settings : List (String × ℤ))
    (compressionEnabled : Bool)
    (h : (readMidiData mid (resolveSettings settings)).chords.length = 0) :
    (convertMidi mid settings compressionEnabled).rules = "" ∧
    NO_NOTES_FOUND ∈ (convertMidi mid settings compressionEnabled).errors ∧
    (convertMidi mid settings compressionEnabled).stopTime = none := by
  have herr := readMidiData_errors_of_empty mid (resolveSettings settings) h
  simp [convertMidi, h, herr]

/-- C7 witness: the empty MIDI file short-circuits. -/
theorem no_notes_shortcircuit_witness :
    (convertMidi ⟨[], 0⟩ [] true).rules = "" ∧
    NO_NOTES_FOUND ∈ (convertMidi ⟨[], 0⟩ [] true).errors ∧
    (convertMidi ⟨[], 0⟩ [] true).stopTime = none :=
  no_notes_shortcircuit ⟨[], 0⟩ [] true (by decide)

/-- C10: on the no-notes error path the result's `stopTime` field carries
no value (the source reads `stopTime` of an empty object, i.e.
`undefined`), while the counters, duration, warnings and errors are still
populated from the aggregation. -/
theorem no_notes_stoptime (mid : MidiFile) (settings : List (String × ℤ))
    (compressionEnabled : Bool)
    (h : (readMidiData mid (resolveSettings settings)).chords.length = 0) :
    (convertMidi mid settings compressionEnabled).stopTime = none ∧
    (convertMidi mid settings compressionEnabled).skippedNotes
        = (readMidiData mid (resolveSettings settings)).skippedNotes ∧
    (convertMidi mid settings compressionEnabled).transposedNotes
        = (readMidiData mid (resolveSettings settings)).transposedNotes ∧
    (convertMidi mid settings compressionEnabled).duration = mid.duration ∧
    (convertMidi mid settings compressionEnabled).warnings
        = (readMidiData mid (resolveSettings settings)).warnings ∧
    (convertMidi mid settings compressionEnabled).errors
        = (readMidiData mid (resolveSettings settings)).errors := by
  simp [convertMidi, h]

/-- C10 witness: a percussion-only file takes the error path with an
undefined stop time. -/
theorem no_notes_stoptime_witness :
    (convertMidi ⟨[⟨9, [⟨0, 30, 1⟩]⟩], 5⟩ [] false).stopTime = none ∧
    (convertMidi ⟨[⟨9, [⟨0, 30, 1⟩]⟩], 5⟩ [] false).duration = 5 :=
  ⟨(no_notes_stoptime ⟨[⟨9, [⟨0, 30, 1⟩]⟩], 5⟩ [] false (by decide)).1,
   (no_notes_stoptime ⟨[⟨9, [⟨0, 30, 1⟩]⟩], 5⟩ [] false (by decide)).2.2.2.1⟩

/-! ### C8: transposition -/

theorem transposeUp_ge_aux : ∀ (n : Nat) (p : ℤ),
    (PIANO_RANGE_MIN - p).toNat ≤ n → PIANO_RANGE_MIN ≤ transposeUp p := by
  intro n
  induction n with
  | zero =>
    intro p h
    rw [transposeUp]
    have hb : ¬ p < PIANO_RANGE_MIN := by
      simp only [PIANO_RANGE_MIN] at h ⊢
      omega
    simp only [hb, if_false, reduceIte]
    omega
  | succ n ih =>
    intro p h
    rw [transposeUp]
    split
    · apply ih
      rename_i h2
      simp only [PIANO_RANGE_MIN, OCTAVE] at h h2 ⊢
      omega
    · rename_i h2
      omega

theorem transposeDown_le_aux : ∀ (n : Nat) (p : ℤ),
    (p - PIANO_RANGE_MAX).toNat ≤ n → transposeDown p ≤ PIANO_RANGE_MAX := by
  intro n
  induction n with
  | zero =>
    intro p h
    rw [transposeDown]
    have hb : ¬ p > PIANO_RANGE_MAX := by
      simp only [PIANO_RANGE_MAX] at h ⊢
      omega
    simp only [hb, if_false, reduceIte]
    omega
  | succ n ih =>
    intro p h
    rw [transposeDown]
    split
    · apply ih
      rename_i h2
      simp only [PIANO_RANGE_MAX, OCTAVE] at h h2 ⊢
      omega
    · rename_i h2
      omega

theorem transposeDown_ge_aux : ∀ (n : Nat) (p : ℤ),
    (p - PIANO_RANGE_MAX).toNat ≤ n → PIANO_RANGE_MIN ≤ p →
      PIANO_RANGE_MIN ≤ transposeDown p := by
  intro n
  induction n with
  | zero =>
    intro p h hp
    rw [transposeDown]
    have hb : ¬ p > PIANO_RANGE_MAX := by
      simp only [PIANO_RANGE_MAX] at h ⊢
      omega
    simp only [hb, if_false, reduceIte]
    omega
  | succ n ih =>
    intro p h hp
    rw [transposeDown]
    split
    · apply ih
      · rename_i h2
        simp only [PIANO_RANGE_MAX, OCTAVE] at h h2 ⊢
        omega
      · rename_i h2
        simp only [PIANO_RANGE_MIN, PIANO_RANGE_MAX, OCTAVE] at h2 ⊢
        omega
    · rename_i h2
      omega

/-- C8: for every integer pitch, the (total, hence terminating)
transposition lands in the piano range [24, 88], and a pitch already in the
range is returned unchanged. -/
theorem transpose_range (p : ℤ) :
    (PIANO_RANGE_MIN ≤ transposePitch p ∧ transposePitch p ≤ PIANO_RANGE_MAX) ∧
    (PIANO_RANGE_MIN ≤ p ∧ p ≤ PIANO_RANGE_MAX → transposePitch p = p) := by
  constructor
  · constructor
    · exact transposeDown_ge_aux (transposeUp p - PIANO_RANGE_MAX).toNat
        (transposeUp p) le_rfl
        (transposeUp_ge_aux (PIANO_RANGE_MIN - p).toNat p le_rfl)
    · exact transposeDown_le_aux (transposeUp p - PIANO_RANGE_MAX).toNat
        (transposeUp p) le_rfl
  · rintro ⟨h1, h2⟩
    unfold transposePitch
    rw [transposeUp, if_neg (by omega)]
    rw [transposeDown, if_neg (by omega)]

/-- C8 witness: an out-of-range pitch is brought into range; an in-range
pitch is unchanged. -/
theorem transpose_range_witness :
    (PIANO_RANGE_MIN ≤ transposePitch 100 ∧ transposePitch 100 ≤ PIANO_RANGE_MAX) ∧
      transposePitch 50 = 50 :=
  ⟨(transpose_range 100).1, (transpose_range 50).2 (by decide)⟩

/-! ### C9: settings validation -/

/-- C9 counterexample: a settings object with the right number of keys (2)
but an out-of-range `voices` value (99, outside 6–11) passes the guard
verbatim and is used as-is — the aggregator then accepts a twelve-pitch
chord. -/
theorem settings_validation_counterexample :
    resolveSettings [("startTime", 0), ("voices", 99)]
        = [("startTime", 0), ("voices", 99)] ∧
    jsLookup [("startTime", 0), ("voices", 99)] "voices" = some 99 ∧
    (readMidiData ⟨[⟨0, [⟨0, 24, 1⟩, ⟨0, 25, 1⟩, ⟨0, 26, 1⟩, ⟨0, 27, 1⟩,
          ⟨0, 28, 1⟩, ⟨0, 29, 1⟩, ⟨0, 30, 1⟩, ⟨0, 31, 1⟩, ⟨0, 32, 1⟩,
          ⟨0, 33, 1⟩, ⟨0, 34, 1⟩, ⟨0, 35, 1⟩]⟩], 1⟩
        [("startTime", 0), ("voices", 99)]).chords
      = [(0, [0, 1, 2, 3, 4, 5, 6, 7, 8, 9, 10, 11])] := by
  refine ⟨by decide, by decide, by decide⟩

/-- C9 (amended): the settings guard looks only at the number of provided
keys — an object with exactly two keys is used verbatim with no per-field
range validation, and any other key count replaces the whole object by the
full defaults (startTime 0, voices 6). -/
theorem settings_fallback_amended (settings : List (String × ℤ)) :
    (settings.length = 2 → resolveSettings settings = settings) ∧
    (settings.length ≠ 2 → resolveSettings settings = DEFAULT_SETTINGS) ∧
    jsLookup DEFAULT_SETTINGS "startTime" = some 0 ∧
    jsLookup DEFAULT_SETTINGS "voices" = some 6 := by
  refine ⟨?_, ?_, by decide, by decide⟩
  · intro h
    simp [resolveSettings, h]
  · intro h
    simp [resolveSettings, h]

/-- C9 witness: a one-key settings object falls back to the full defaults. -/
theorem settings_fallback_amended_witness :
    resolveSettings [("startTime", 3)] = DEFAULT_SETTINGS :=
  (settings_fallback_amended [("startTime", 3)]).2.1 (by decide)

/-! ### C6: the rule emitter appends `undefined` when a group starts on the
last element -/

set_option maxRecDepth 100000 in
/-- C6 (code bug evidence): on the packed streams of a one-chord, one-pitch
song (each stream holds a single element) every emitted array rule appends
the string `undefined` after its lone real element, because the inner loop
of `writeWorkshopRules` reads `songArray[index]` before checking the
bounds.  The declarations therefore do not partition the stream elements:
each contains one value that is not a stream element. -/
theorem emitter_undefined_element :
    writeWorkshopRules
        [("pitchArrays", ["36"]), ("timeArrays", ["0000"]), ("chordArrays", ["1"])] "6"
      = "rule(\"Max amount of bots required\")\x7bevent\x7bOngoing-Global;\x7dactions\x7bGlobal.maxBots = 6;Global.maxArraySize = 999;\n    Global.compressedElementSize = 7;\x7d\x7d\nrule(\"pitchArrays\")\x7bevent\x7bOngoing-Global;\x7dactions\x7bGlobal.pitchArrays[0] = Array(36, undefined);\x7d\x7d\nrule(\"timeArrays\")\x7bevent\x7bOngoing-Global;\x7dactions\x7bGlobal.timeArrays[0] = Array(0000, undefined);\x7d\x7d\nrule(\"chordArrays\")\x7bevent\x7bOngoing-Global;\x7dactions\x7bGlobal.chordArrays[0] = Array(1, undefined);\x7d\x7d\n" := by
  decide
